import Mathlib

/-!
Verification of the segmentation-and-extraction core of the electoral-roll
OCR pipeline (block detection, boundary inference, anchor detection, record
validation, field extraction, translation caching).

The JavaScript sources are embedded shallowly: every function is translated
into an executable Lean definition over `Int` coordinates, `Rat` confidences
and `List Char` strings.  Floating-point arithmetic of the source is modelled
by exact rational arithmetic; `Math.floor` is modelled by `Int.fdiv`.
-/

namespace VoterOcr

/-! Basic character classes.  The whitespace class models the ASCII part of
the JavaScript `\s` class, and the word class models `\w`. -/

def isAsciiUpper (c : Char) : Bool := decide ('A' ≤ c) && decide (c ≤ 'Z')

def isAsciiLower (c : Char) : Bool := decide ('a' ≤ c) && decide (c ≤ 'z')

def isAsciiDigit (c : Char) : Bool := decide ('0' ≤ c) && decide (c ≤ '9')

def isAsciiAlnum (c : Char) : Bool := isAsciiUpper c || isAsciiLower c || isAsciiDigit c

def isWsChar (c : Char) : Bool := decide (c = ' ') || decide (c = '\t') || decide (c = '\n') || decide (c = '\r')

def isWordChar (c : Char) : Bool := isAsciiAlnum c || decide (c = '_')

def isOdiaChar (c : Char) : Bool := decide (0x0B00 ≤ c.toNat) && decide (c.toNat ≤ 0x0B7F)

def toUpperChar (c : Char) : Char := if isAsciiLower c then Char.ofNat (c.toNat - 32) else c

def toLowerChar (c : Char) : Char := if isAsciiUpper c then Char.ofNat (c.toNat + 32) else c

/-! Exact rational arithmetic helpers.  `Rat.divInt` is kernel-reducible,
unlike the `Mul`/`Div` instances on `Rat`, so the embedded code uses these. -/

def ratMul (a b : Rat) : Rat := Rat.divInt (a.num * b.num) ((a.den : Int) * (b.den : Int))

def ratAdd (a b : Rat) : Rat := Rat.divInt (a.num * (b.den : Int) + b.num * (a.den : Int)) ((a.den : Int) * (b.den : Int))

def ratHalf (a : Rat) : Rat := Rat.divInt a.num (2 * (a.den : Int))

/-! Integer helpers mirroring `Math.min`, `Math.max` and `Math.abs`. -/

def intMin (a b : Int) : Int := if a ≤ b then a else b

def intMax (a b : Int) : Int := if a ≤ b then b else a

def intAbs (a : Int) : Int := if a < 0 then -a else a

/-! Grid fallback block detection, from `detectBlocksByGrid` in
`src/modules/ocr.js`.  The JavaScript computes
`margin = Math.floor(width * 0.02)`, `colWidth = Math.floor((width - margin*4)/3)`,
`rows = Math.floor((height - margin*2)/200)`, then emits one block per
(row, col) cell, skipping a cell when `y + rowHeight > height`; `blockIndex`
is incremented only when a block is pushed. -/

structure GridBlock where
  voterId : Nat
  blockIndex : Nat
  x : Int
  y : Int
  width : Int
  height : Int
deriving DecidableEq

def gridCells (rows cols : Nat) : List (Nat × Nat) :=
  (List.range rows).flatMap (fun row => (List.range cols).map (fun col => (row, col)))

def gridLoop (height margin colWidth rowHeight : Int) : List (Nat × Nat) → Nat → List GridBlock
  | [], _ => []
  | (row, col) :: rest, blockIndex =>
    let x := margin + (col : Int) * (colWidth + margin)
    let y := margin + (row : Int) * rowHeight
    if y + rowHeight > height then
      gridLoop height margin colWidth rowHeight rest blockIndex
    else
      ⟨blockIndex + 1, blockIndex, x, y, colWidth, rowHeight⟩ ::
        gridLoop height margin colWidth rowHeight rest (blockIndex + 1)

def detectBlocksByGrid (width height : Int) : List GridBlock :=
  let margin : Int := Int.fdiv (width * 2) 100
  let colWidth : Int := Int.fdiv (width - margin * 4) 3
  let rowHeight : Int := 200
  let rows : Int := Int.fdiv (height - margin * 2) rowHeight
  gridLoop height margin colWidth rowHeight (gridCells rows.toNat 3) 0

/-! Word geometry, from `findVoterBlockBoundaries` / `calculateBlockBoundary`
in `src/modules/ocr.js`.  A recognized word carries its text, a confidence
and a bounding box; a block boundary is an `{x, y, width, height}` rectangle. -/

structure BBox where
  x0 : Int
  y0 : Int
  x1 : Int
  y1 : Int
deriving DecidableEq

structure Word where
  text : List Char
  confidence : Rat
  bbox : BBox
deriving DecidableEq

structure Boundary where
  x : Int
  y : Int
  width : Int
  height : Int
deriving DecidableEq

def Boundary.bottom (b : Boundary) : Int := b.y + b.height

def Boundary.right (b : Boundary) : Int := b.x + b.width

def calculateBlockBoundary (currentVoterWord : Word) (nextVoterWord : Option Word)
    (allWords : List Word) (imageHeight : Int) : Boundary :=
  let currentY := currentVoterWord.bbox.y0
  let blockHeight : Int := 150
  let margin : Int := 10
  let rowWords := allWords.filter (fun w => decide (intAbs (w.bbox.y0 - currentY) < 30))
  let minX := (rowWords.map (fun w => w.bbox.x0)).foldr intMin currentVoterWord.bbox.x0
  let maxX := (rowWords.map (fun w => w.bbox.x1)).foldr intMax currentVoterWord.bbox.x1
  let bottomY0 :=
    match nextVoterWord with
    | some nw => intMin (nw.bbox.y0 - margin) (currentY + blockHeight)
    | none => intMin (currentY + blockHeight) imageHeight
  let blockWords := allWords.filter
    (fun w => decide (currentY - margin ≤ w.bbox.y0) && decide (w.bbox.y0 ≤ bottomY0))
  let bottomY :=
    match blockWords.map (fun w => w.bbox.y1) with
    | [] => bottomY0
    | m :: ms => intMin ((ms.foldr intMax m) + margin) bottomY0
  { x := intMax 0 (minX - margin)
    y := intMax 0 (currentY - margin)
    width := (maxX - minX) + 2 * margin
    height := (bottomY - currentY) + margin }

/-! Voter-id anchor detection, from `findVoterBlockBoundaries` in
`src/modules/ocr.js`.  Word texts are cleaned (`replace(/\s+/g,'')`,
`replace(/[^A-Z0-9]/gi,'')`, `toUpperCase()`), tested against the strict
pattern `[A-Z]{3}\d{7}` (a containment test, as `RegExp.test` has no
anchors) and the relaxed pattern `[A-Z]{2,4}\d{6,8}`; adjacent word pairs
are concatenated (whitespace removed, uppercased) and tested against the
strict pattern.  Candidates are sorted by confidence descending and
deduplicated by id keeping the first (highest-confidence) occurrence. -/

def cleanWordText (s : List Char) : List Char := (s.filter isAsciiAlnum).map toUpperChar

def strictIdAt : List Char → Bool
  | a :: b :: c :: d1 :: d2 :: d3 :: d4 :: d5 :: d6 :: d7 :: _ =>
    isAsciiUpper a && isAsciiUpper b && isAsciiUpper c &&
    isAsciiDigit d1 && isAsciiDigit d2 && isAsciiDigit d3 && isAsciiDigit d4 &&
    isAsciiDigit d5 && isAsciiDigit d6 && isAsciiDigit d7
  | _ => false

def containsStrictId : List Char → Bool
  | [] => false
  | c :: rest => strictIdAt (c :: rest) || containsStrictId rest

def digitsRun (b : Nat) (l : List Char) : Bool :=
  match b, l with
  | 0, _ => true
  | _ + 1, [] => false
  | b + 1, c :: rest => isAsciiDigit c && digitsRun b rest

def uppersThenDigits (a b : Nat) (l : List Char) : Bool :=
  match a, l with
  | 0, l => digitsRun b l
  | _ + 1, [] => false
  | a + 1, c :: rest => isAsciiUpper c && uppersThenDigits a b rest

def relaxedIdAt (l : List Char) : Bool :=
  [2, 3, 4].any fun a => [6, 7, 8].any fun b => uppersThenDigits a b l

def containsRelaxedId : List Char → Bool
  | [] => false
  | c :: rest => relaxedIdAt (c :: rest) || containsRelaxedId rest

structure Candidate where
  word : Word
  voterId : List Char
  confidence : Rat
deriving DecidableEq

def wordCandidates : List Word → List Candidate
  | [] => []
  | w :: rest =>
    let cleanText := cleanWordText w.text
    if containsStrictId cleanText then
      ⟨w, cleanText, w.confidence⟩ :: wordCandidates rest
    else if containsRelaxedId cleanText then
      ⟨w, cleanText, ratMul w.confidence (Rat.divInt 4 5)⟩ :: wordCandidates rest
    else wordCandidates rest

def pairCandidates : List Word → List Candidate
  | [] => []
  | [_] => []
  | w1 :: w2 :: rest =>
    let combined := ((w1.text ++ w2.text).filter (fun c => !isWsChar c)).map toUpperChar
    if containsStrictId combined then
      ⟨w1, combined, ratMul (ratHalf (ratAdd w1.confidence w2.confidence)) (Rat.divInt 9 10)⟩ ::
        pairCandidates (w2 :: rest)
    else pairCandidates (w2 :: rest)

def anchorCandidates (words : List Word) : List Candidate :=
  wordCandidates words ++ pairCandidates words

def candGE (a b : Candidate) : Prop := b.confidence ≤ a.confidence

instance : DecidableRel candGE := fun a b => inferInstanceAs (Decidable (b.confidence ≤ a.confidence))

instance : IsTotal Candidate candGE := ⟨fun a b => le_total b.confidence a.confidence⟩

instance : IsTrans Candidate candGE := ⟨fun _ _ _ h1 h2 => le_trans h2 h1⟩

def dedupCandidates : List Candidate → List (List Char) → List Candidate
  | [], _ => []
  | c :: cs, seen =>
    if c.voterId ∈ seen then dedupCandidates cs seen
    else c :: dedupCandidates cs (c.voterId :: seen)

def uniqueVoterIds (words : List Word) : List Candidate :=
  dedupCandidates (List.insertionSort candGE (anchorCandidates words)) []

structure VoterBlock where
  voterId : List Char
  blockIndex : Nat
  boundary : Boundary
  referenceWord : Word
  confidence : Rat
deriving DecidableEq

def buildBlocks (words : List Word) (imageHeight : Int) : List Candidate → Nat → List VoterBlock
  | [], _ => []
  | c :: rest, i =>
    ⟨c.voterId, i,
      calculateBlockBoundary c.word (rest.head?.map Candidate.word) words imageHeight,
      c.word, c.confidence⟩ ::
      buildBlocks words imageHeight rest (i + 1)

def findVoterBlockBoundaries (words : List Word) (imageHeight : Int) : List VoterBlock :=
  buildBlocks words imageHeight (uniqueVoterIds words) 0

/-! Record validation, from `isValidVoter` and `extractAge` in
`src/modules/parser.js`.  The label-word list is copied verbatim; string
`includes` is substring containment; the voter-id check is the unanchored
`match(/[A-Z]{3}\d{7}/)` containment test. -/

def labelWords : List (List Char) :=
  ["ଘର".toList, "ଘରା".toList, "ମିର".toList, "ରାମା".toList, "ହାଇ".toList,
   "ଘନ".toList, "ଘନା".toList, "ଘମା".toList, "ନଂ".toList,
   "ନାମ".toList, "ପିତା".toList, "ମାତା".toList, "ସ୍ୱାମୀ".toList, "ବୟସ".toList,
   "name".toList, "father".toList, "mother".toList]

def startsWithList : List Char → List Char → Bool
  | [], _ => true
  | _ :: _, [] => false
  | a :: as, b :: bs => decide (a = b) && startsWithList as bs

def containsSub (hay needle : List Char) : Bool :=
  match hay with
  | [] => needle.isEmpty
  | c :: rest => startsWithList needle (c :: rest) || containsSub rest needle

structure VoterRec where
  voterId : List Char
  nameOdia : List Char
  age : Int
deriving DecidableEq

def isValidVoter (v : VoterRec) : Bool :=
  !v.voterId.isEmpty &&
  containsStrictId v.voterId &&
  decide (v.nameOdia.length > 2) &&
  !(labelWords.any (fun label => containsSub v.nameOdia label)) &&
  decide (v.age ≥ 18) && decide (v.age ≤ 120)

/-! Age extraction, from `extractAge` in `src/modules/parser.js`: all
matches of `/\b(\d{2})\b/g` are scanned in order and the first value in
[18, 120] is returned, defaulting to 25. -/

def digitVal (c : Char) : Nat := c.toNat - 48

def twoDigitTokens (prev : Option Char) (l : List Char) : List Nat :=
  match l with
  | c1 :: c2 :: rest =>
    if isAsciiDigit c1 && isAsciiDigit c2 &&
        (match prev with | none => true | some p => !isWordChar p) &&
        (match rest with | [] => true | r :: _ => !isWordChar r) then
      (10 * digitVal c1 + digitVal c2) :: twoDigitTokens (some c2) rest
    else
      twoDigitTokens (some c1) (c2 :: rest)
  | _ => []
termination_by l.length

def extractAgeLoop : List Nat → Nat
  | [] => 25
  | v :: rest => if 18 ≤ v ∧ v ≤ 120 then v else extractAgeLoop rest

def extractAge (s : List Char) : Nat := extractAgeLoop (twoDigitTokens none s)

/-! Translation cache layer, from the `Translator` class
(`translateToEnglish`, `normalizeText`, `isOdiaText`, `romanizeOdia`,
`capitalizeWords`).  The external translation service is modelled by an
oracle argument: `some r` means the call succeeds with result `r`, `none`
means it raises.  A call returns the produced text, the updated cache state
and the number of external calls issued (0 or 1).  The rate-limit delay only
affects real time, not results, and is not modelled. -/

def trimChars (s : List Char) : List Char :=
  ((s.dropWhile isWsChar).reverse.dropWhile isWsChar).reverse

def collapseWsAux (prevWs : Bool) : List Char → List Char
  | [] => []
  | c :: rest =>
    if isWsChar c then
      if prevWs then collapseWsAux true rest
      else ' ' :: collapseWsAux true rest
    else c :: collapseWsAux false rest

def collapseWs (s : List Char) : List Char := collapseWsAux false s

def normalizeKeep (c : Char) : Bool :=
  isWordChar c || isWsChar c || isOdiaChar c || decide (c = '-')

def normalizeText (s : List Char) : List Char :=
  (collapseWs (trimChars s)).filter normalizeKeep

def isOdiaText (s : List Char) : Bool := s.any isOdiaChar

def romanizeMap : List (Char × List Char) :=
  [('କ', "ka".toList), ('ଖ', "kha".toList), ('ଗ', "ga".toList), ('ଘ', "gha".toList),
   ('ଙ', "nga".toList),
   ('ଚ', "cha".toList), ('ଛ', "chha".toList), ('ଜ', "ja".toList), ('ଝ', "jha".toList),
   ('ଞ', "nya".toList),
   ('ଟ', "ta".toList), ('ଠ', "tha".toList), ('ଡ', "da".toList), ('ଢ', "dha".toList),
   ('ଣ', "na".toList),
   ('ତ', "ta".toList), ('ଥ', "tha".toList), ('ଦ', "da".toList), ('ଧ', "dha".toList),
   ('ନ', "na".toList),
   ('ପ', "pa".toList), ('ଫ', "pha".toList), ('ବ', "ba".toList), ('ଭ', "bha".toList),
   ('ମ', "ma".toList),
   ('ଯ', "ya".toList), ('ର', "ra".toList), ('ଲ', "la".toList), ('ଳ', "la".toList),
   ('ଶ', "sha".toList),
   ('ଷ', "sha".toList), ('ସ', "sa".toList), ('ହ', "ha".toList), ('ା', "a".toList),
   ('ି', "i".toList),
   ('ୀ', "i".toList), ('ୁ', "u".toList), ('ୂ', "u".toList), ('େ', "e".toList),
   ('ୈ', "ai".toList),
   ('ୋ', "o".toList), ('ୌ', "au".toList), ('ଂ', "m".toList), ('ଃ', "h".toList),
   ('୍', "".toList),
   ('ଅ', "a".toList), ('ଆ', "a".toList), ('ଇ', "i".toList), ('ଈ', "i".toList),
   ('ଉ', "u".toList),
   ('ଊ', "u".toList), ('ଏ', "e".toList), ('ଐ', "ai".toList), ('ଓ', "o".toList),
   ('ଔ', "au".toList)]

def splitOnSpace : List Char → List (List Char)
  | [] => [[]]
  | c :: rest =>
    match splitOnSpace rest with
    | [] => if decide (c = ' ') then [[], []] else [[c]]
    | seg :: segs => if decide (c = ' ') then [] :: seg :: segs else (c :: seg) :: segs

def capFirst : List Char → List Char
  | [] => []
  | c :: rest => toUpperChar c :: rest

def capitalizeWords (s : List Char) : List Char :=
  List.intercalate [' '] ((splitOnSpace (s.map toLowerChar)).map capFirst)

def romanizeOdia (text : List Char) : List Char :=
  capitalizeWords (text.flatMap (fun c =>
    match (romanizeMap.find? (fun p => decide (p.1 = c))).map Prod.snd with
    | some r => r
    | none => [c]))

def cacheLookup (k : List Char) : List (List Char × List Char) → Option (List Char)
  | [] => none
  | p :: rest => if p.1 = k then some p.2 else cacheLookup k rest

structure TransState where
  cache : List (List Char × List Char)
deriving DecidableEq

structure TransResult where
  result : List Char
  state : TransState
  externalCalls : Nat
deriving DecidableEq

def translateToEnglish (oracle : Option (List Char)) (st : TransState)
    (text : List Char) : TransResult :=
  if (trimChars text).isEmpty then ⟨[], st, 0⟩
  else
    let normalizedText := normalizeText text
    match cacheLookup normalizedText st.cache with
    | some v => ⟨v, st, 0⟩
    | none =>
      if !(isOdiaText normalizedText) then ⟨normalizedText, st, 0⟩
      else if normalizedText.length < 3 then ⟨normalizedText, st, 0⟩
      else
        match oracle with
        | some r => ⟨r, ⟨(normalizedText, r) :: st.cache⟩, 1⟩
        | none => ⟨romanizeOdia normalizedText, st, 1⟩

def odiaT : List Char := "କଖଗ".toList

/-! Structural fallback block detection, from `detectBlocksByVisualStructure`
in `src/modules/ocr.js`: recognized lines are grouped by folding over them,
starting a new group when the gap from the running group bottom (`maxY`) to
the next line top (`y0`) is not below the 40px threshold. -/

structure OcrLine where
  bbox : BBox
  text : List Char
deriving DecidableEq

structure StructBlock where
  lines : List OcrLine
  minY : Int
  maxY : Int
  minX : Int
  maxX : Int
deriving DecidableEq

def newStructBlock (l : OcrLine) : StructBlock :=
  ⟨[l], l.bbox.y0, l.bbox.y1, l.bbox.x0, l.bbox.x1⟩

def extendStructBlock (b : StructBlock) (l : OcrLine) : StructBlock :=
  ⟨b.lines ++ [l], b.minY, intMax b.maxY l.bbox.y1,
    intMin b.minX l.bbox.x0, intMax b.maxX l.bbox.x1⟩

def structGroupsAux (cur : StructBlock) : List OcrLine → List StructBlock
  | [] => [cur]
  | l :: rest =>
    if l.bbox.y0 - cur.maxY < 40 then structGroupsAux (extendStructBlock cur l) rest
    else cur :: structGroupsAux (newStructBlock l) rest

def structGroups : List OcrLine → List StructBlock
  | [] => []
  | l :: rest => structGroupsAux (newStructBlock l) rest

/-! Specification predicates for the grouping: `chainOk` states that every
line joined an existing group only when its gap from the running group
bottom was strictly below 40, `maxYFrom` recomputes the running bottom, and
`splitOk` states that each new group started with a gap of at least 40. -/

def chainOk (m : Int) : List OcrLine → Bool
  | [] => true
  | l :: rest => decide (l.bbox.y0 - m < 40) && chainOk (intMax m l.bbox.y1) rest

def maxYFrom (m : Int) : List OcrLine → Int
  | [] => m
  | l :: rest => maxYFrom (intMax m l.bbox.y1) rest

def blockWellFormed (B : StructBlock) : Prop :=
  ∃ hd tl, B.lines = hd :: tl ∧ chainOk hd.bbox.y1 tl = true ∧
    B.maxY = maxYFrom hd.bbox.y1 tl

def splitOk : List StructBlock → Bool
  | [] => true
  | [_] => true
  | b :: b2 :: rest =>
    (match b2.lines with
     | [] => false
     | hd :: _ => decide (40 ≤ hd.bbox.y0 - b.maxY)) && splitOk (b2 :: rest)

def lineP : OcrLine := ⟨⟨0, 0, 100, 10⟩, "a".toList⟩

def lineQ : OcrLine := ⟨⟨0, 50, 100, 60⟩, "b".toList⟩

/-! Bilingual key-value field extraction, from `extractKeyValues` in
`src/modules/ocr.js`.  For each field the code builds the regex
`(?:fieldAlts)\s*:\s*(.+?)(?=\s*(?:allAlts)\s*:|$)` with flags `i`
(modelled as ASCII case folding) and `s` (dot matches newline), finds the
leftmost match, trims the captured value, splits it on `\n+|\s{3,}` and
keeps the first trimmed part.  The regex is modelled operationally:
alternation is ordered with backtracking, `\s*:` consumes the maximal
whitespace run before the colon, the lazy capture `(.+?)` stops at the first
position where the lookahead succeeds, and the lookahead `\s*(?:alts)\s*:|$`
succeeds at the end of input or when some whitespace-prefix split is
followed by a key and a colon. -/

def ciEqChar (a b : Char) : Bool := decide (toLowerChar a = toLowerChar b)

def ciStartsWith : List Char → List Char → Bool
  | [], _ => true
  | _ :: _, [] => false
  | p :: ps, s :: ss => ciEqChar p s && ciStartsWith ps ss

def dropWs (s : List Char) : List Char := s.dropWhile isWsChar

def expectColon (s : List Char) : Option (List Char) :=
  match dropWs s with
  | [] => none
  | c :: rest => if c = ':' then some rest else none

def keysColonAt (alts : List (List Char)) (s : List Char) : Bool :=
  alts.any (fun a => ciStartsWith a s && (expectColon (s.drop a.length)).isSome)

def keysColonAfterWs (alts : List (List Char)) : List Char → Bool
  | [] => keysColonAt alts []
  | c :: rest => keysColonAt alts (c :: rest) || (isWsChar c && keysColonAfterWs alts rest)

def lookaheadOk (alts : List (List Char)) (s : List Char) : Bool :=
  s.isEmpty || keysColonAfterWs alts s

def capGo (alts : List (List Char)) : List Char → List Char
  | [] => []
  | c :: rest => if lookaheadOk alts (c :: rest) then [] else c :: capGo alts rest

def captureValue (alts : List (List Char)) (s : List Char) : Option (List Char) :=
  match s with
  | [] => none
  | _ :: _ =>
    let k := (s.takeWhile isWsChar).length
    if k = s.length then
      some (s.drop (k - 1))
    else
      match s.drop k with
      | [] => none
      | c :: rest => some (c :: capGo alts rest)

def tryFieldAt (allAlts : List (List Char)) (s : List Char) :
    List (List Char) → Option (List Char)
  | [] => none
  | a :: restAlts =>
    match (if ciStartsWith a s then expectColon (s.drop a.length) else none) with
    | some afterColon =>
      match captureValue allAlts afterColon with
      | some v => some v
      | none => tryFieldAt allAlts s restAlts
    | none => tryFieldAt allAlts s restAlts

def findFieldMatch (fieldAlts allAlts : List (List Char)) : List Char → Option (List Char)
  | [] => none
  | c :: rest =>
    match tryFieldAt allAlts (c :: rest) fieldAlts with
    | some v => some v
    | none => findFieldMatch fieldAlts allAlts rest

def firstSegment : List Char → List Char
  | [] => []
  | c :: rest =>
    if decide (c = '\n') then []
    else
      match rest with
      | c2 :: c3 :: _ =>
        if isWsChar c && isWsChar c2 && isWsChar c3 then []
        else c :: firstSegment rest
      | _ => c :: firstSegment rest

def extractFieldValue (fieldAlts allAlts : List (List Char)) (text : List Char) :
    Option (List Char) :=
  (findFieldMatch fieldAlts allAlts text).map (fun v => trimChars (firstSegment (trimChars v)))

def keyTableName : List (List Char) := ["name".toList, "ନାମ".toList, "Name".toList]

def keyTableAge : List (List Char) := ["age".toList, "ବୟସ".toList, "Age".toList]

def keyTableGender : List (List Char) :=
  ["gender".toList, "ଲିଗଂ".toList, "ଲିଂଗ".toList, "Gender".toList]

def keyTableHouseNo : List (List Char) :=
  ["houseNo".toList, "ଘର ନଂ".toList, "House No".toList, "ଘର ନମ୍ବର".toList]

def keyTableGuardian : List (List Char) :=
  ["guardianName".toList, "ସ୍ବାମୀଙ୍କ ନାମ".toList, "Husband Name".toList, "ସ୍ୱାମୀ".toList,
   "Husband".toList, "ପିତାଙ୍କ ନାମ".toList, "Father Name".toList, "ମାତାଙ୍କ ନାମ".toList,
   "Mother Name".toList]

def allKeyAlternatives : List (List Char) :=
  keyTableName ++ keyTableAge ++ keyTableGender ++ keyTableHouseNo ++ keyTableGuardian

structure KeyValues where
  name : Option (List Char)
  age : Option (List Char)
  gender : Option (List Char)
  houseNo : Option (List Char)
  guardianName : Option (List Char)
deriving DecidableEq

def extractKeyValues (text : List Char) : KeyValues :=
  ⟨extractFieldValue keyTableName allKeyAlternatives text,
   extractFieldValue keyTableAge allKeyAlternatives text,
   extractFieldValue keyTableGender allKeyAlternatives text,
   extractFieldValue keyTableHouseNo allKeyAlternatives text,
   extractFieldValue keyTableGuardian allKeyAlternatives text⟩

/-! Concrete words used by witnesses and counterexamples. -/

def wA : Word := ⟨"ABC1234567".toList, 90, ⟨10, 100, 110, 120⟩⟩

def wB : Word := ⟨"XYZ7654321".toList, 80, ⟨10, 300, 110, 320⟩⟩

def wC : Word := ⟨"ABC1234567".toList, 90, ⟨50, 100, 150, 120⟩⟩

def wD : Word := ⟨"XYZ7654321".toList, 80, ⟨200, 100, 300, 120⟩⟩

end VoterOcr

namespace VoterOcr

theorem gridCells_length (rows cols : Nat) : (gridCells rows cols).length = rows * cols := by
  induction rows with
  | zero => simp [gridCells]
  | succ r ih =>
    simp only [gridCells, List.range_succ, List.flatMap_append, List.length_append] at *
    simp [ih, Nat.succ_mul]

theorem gridCells_mem {rows cols row col : Nat} (h : (row, col) ∈ gridCells rows cols) :
    row < rows ∧ col < cols := by
  simp only [gridCells, List.mem_flatMap, List.mem_map, List.mem_range] at h
  obtain ⟨r, hr, c, hc, heq⟩ := h
  cases heq
  exact ⟨hr, hc⟩

theorem gridLoop_length_of_no_skip (height margin colWidth rowHeight : Int)
    (cells : List (Nat × Nat)) :
    (∀ rc ∈ cells, ¬(margin + ((rc.1 : Int)) * rowHeight + rowHeight > height)) →
    ∀ i, (gridLoop height margin colWidth rowHeight cells i).length = cells.length := by
  induction cells with
  | nil => intro _ i; simp [gridLoop]
  | cons rc rest ih =>
    intro h i
    obtain ⟨row, col⟩ := rc
    have hhead := h (row, col) (List.mem_cons_self _ _)
    simp only at hhead
    have hrest : ∀ rc ∈ rest, ¬(margin + ((rc.1 : Int)) * rowHeight + rowHeight > height) :=
      fun rc hm => h rc (List.mem_cons_of_mem _ hm)
    simp only [gridLoop]
    rw [if_neg (by omega)]
    simp [ih hrest (i + 1)]

/-- C1, counterexample.  On a 100×100 page (positive width and height) the
grid fallback returns zero blocks, while the claimed formula
`3 × ⌈(H − 2·margin)/rowHeight⌉` evaluates to 3, so the detector neither
matches the ceiling formula nor guarantees a nonzero block count. -/
theorem grid_zero_blocks_cex :
    (detectBlocksByGrid 100 100).length = 0 ∧
    3 * ((((100 : Int) - 2 * Int.fdiv (100 * 2) 100) + 199).toNat / 200) = 3 := by
  constructor
  · rfl
  · rfl

/-- C1, amended.  For every page of positive width and height the grid
fallback returns exactly `3 × ⌊(H − 2·margin)/rowHeight⌋` blocks (floor, not
ceiling); in particular the count is zero whenever `H − 2·margin < 200`. -/
theorem grid_block_count (width height : Int) (hw : 0 < width) (hh : 0 < height) :
    (detectBlocksByGrid width height).length
      = 3 * (Int.fdiv (height - Int.fdiv (width * 2) 100 * 2) 200).toNat := by
  have hmargin : 0 ≤ Int.fdiv (width * 2) 100 := by
    rw [Int.fdiv_eq_ediv _ (by norm_num)]
    exact Int.ediv_nonneg (by omega) (by norm_num)
  set margin := Int.fdiv (width * 2) 100 with hm
  set rows := Int.fdiv (height - margin * 2) 200 with hr
  have hrows : rows * 200 ≤ height - margin * 2 := by
    rw [hr, Int.fdiv_eq_ediv _ (by norm_num)]
    omega
  have hnoskip : ∀ rc ∈ gridCells rows.toNat 3,
      ¬(margin + ((rc.1 : Int)) * 200 + 200 > height) := by
    intro rc hmem
    obtain ⟨hrow, _⟩ := gridCells_mem hmem
    have h1 : ((rc.1 : Int)) + 1 ≤ rows := by omega
    nlinarith
  have := gridLoop_length_of_no_skip height margin
    (Int.fdiv (width - margin * 4) 3) 200 (gridCells rows.toNat 3) hnoskip 0
  unfold detectBlocksByGrid
  rw [← hm, ← hr] at *
  rw [this, gridCells_length]
  omega

/-- C1, witness for the amended theorem at a concrete 300×500 page. -/
theorem grid_block_count_witness :
    (detectBlocksByGrid 300 500).length
      = 3 * (Int.fdiv (500 - Int.fdiv (300 * 2) 100 * 2) 200).toNat :=
  grid_block_count 300 500 (by decide) (by decide)

theorem intMin_le_left (a b : Int) : intMin a b ≤ a := by
  unfold intMin; split <;> omega

theorem intMin_le_right (a b : Int) : intMin a b ≤ b := by
  unfold intMin; split <;> omega

theorem le_intMax_left (a b : Int) : a ≤ intMax a b := by
  unfold intMax; split <;> omega

theorem intMax_eq_or (a b : Int) : (intMax a b = b ∧ a ≤ b) ∨ (intMax a b = a ∧ b ≤ a) := by
  unfold intMax
  split
  · exact Or.inl ⟨rfl, by omega⟩
  · exact Or.inr ⟨rfl, by omega⟩

theorem foldr_intMin_le (l : List Int) (a : Int) : l.foldr intMin a ≤ a := by
  induction l with
  | nil => exact le_refl a
  | cons c t ih => exact le_trans (intMin_le_right c _) ih

theorem le_foldr_intMax (l : List Int) (a : Int) : a ≤ l.foldr intMax a := by
  induction l with
  | nil => exact le_refl a
  | cons c t ih =>
    calc a ≤ t.foldr intMax a := ih
    _ ≤ intMax c (t.foldr intMax a) := by unfold intMax; split <;> omega

theorem calc_bottom_le (A B : Word) (allWords : List Word) (himg : Int)
    (hy : 0 ≤ A.bbox.y0) :
    (calculateBlockBoundary A (some B) allWords himg).bottom ≤ B.bbox.y0 := by
  simp only [calculateBlockBoundary, Boundary.bottom]
  have hb0 : intMin (B.bbox.y0 - 10) (A.bbox.y0 + 150) ≤ B.bbox.y0 - 10 :=
    intMin_le_left _ _
  cases hml : (allWords.filter
      (fun w => decide (A.bbox.y0 - 10 ≤ w.bbox.y0) &&
        decide (w.bbox.y0 ≤ intMin (B.bbox.y0 - 10) (A.bbox.y0 + 150)))).map
      (fun w => w.bbox.y1) with
  | nil =>
    simp only [hml]
    rcases intMax_eq_or 0 (A.bbox.y0 - 10) with ⟨heq, hle⟩ | ⟨heq, hle⟩ <;> rw [heq] <;> omega
  | cons m ms =>
    simp only [hml]
    have h2 : intMin ((ms.foldr intMax m) + 10)
        (intMin (B.bbox.y0 - 10) (A.bbox.y0 + 150)) ≤
        intMin (B.bbox.y0 - 10) (A.bbox.y0 + 150) := intMin_le_right _ _
    rcases intMax_eq_or 0 (A.bbox.y0 - 10) with ⟨heq, hle⟩ | ⟨heq, hle⟩ <;> rw [heq] <;> omega

theorem buildBlocks_getElem (words : List Word) (himg : Int) :
    ∀ (cands : List Candidate) (i j : Nat),
      (buildBlocks words himg cands i)[j]? =
        (cands[j]?).map (fun c =>
          ⟨c.voterId, i + j,
            calculateBlockBoundary c.word ((cands[j+1]?).map Candidate.word) words himg,
            c.word, c.confidence⟩) := by
  intro cands
  induction cands with
  | nil => intro i j; simp [buildBlocks]
  | cons c rest ih =>
    intro i j
    cases j with
    | zero =>
      simp only [buildBlocks, List.getElem?_cons_zero, List.getElem?_cons_succ, Option.map_some]
      cases rest <;> simp
    | succ k =>
      simp only [buildBlocks, List.getElem?_cons_succ]
      rw [ih (i + 1) k]
      cases rest[k]? <;> simp <;> omega

/-- C2.  For two anchors that are adjacent in the deduplicated candidate
list, the block built for the first anchor has its boundary bottom at or
above the next anchor's top edge, provided the anchor lies on the page
(nonnegative y-coordinate). -/
theorem anchor_block_bottom (words : List Word) (imageHeight : Int) (j : Nat)
    (A B : Candidate)
    (hA : (uniqueVoterIds words)[j]? = some A)
    (hB : (uniqueVoterIds words)[j+1]? = some B)
    (hy : 0 ≤ A.word.bbox.y0) :
    ∃ blk, (findVoterBlockBoundaries words imageHeight)[j]? = some blk ∧
      blk.boundary.bottom ≤ B.word.bbox.y0 := by
  unfold findVoterBlockBoundaries
  rw [buildBlocks_getElem words imageHeight (uniqueVoterIds words) 0 j, hA, hB]
  exact ⟨_, rfl, calc_bottom_le A.word B.word words imageHeight hy⟩

/-- C2, witness at a concrete two-anchor page. -/
theorem anchor_block_bottom_witness :
    ∃ blk, (findVoterBlockBoundaries [wA, wB] 1000)[0]? = some blk ∧
      blk.boundary.bottom ≤ (⟨wB, "XYZ7654321".toList, 80⟩ : Candidate).word.bbox.y0 :=
  anchor_block_bottom [wA, wB] 1000 0 ⟨wA, "ABC1234567".toList, 90⟩
    ⟨wB, "XYZ7654321".toList, 80⟩ (by decide) (by decide) (by decide)

/-- C4, counterexample.  With two anchors on the same row the boundary
height degenerates to 0 (not strictly positive), and the boundary's right
edge (310) exceeds the right edge of every word on the page (300), so the
boundary does not lie within page bounds. -/
theorem boundary_positive_cex :
    (calculateBlockBoundary wC (some wD) [wC, wD] 1000).height = 0 ∧
    (calculateBlockBoundary wC (some wD) [wC, wD] 1000).right = 310 ∧
    wC.bbox.x1 ≤ 300 ∧ wD.bbox.x1 ≤ 300 := by
  refine ⟨rfl, rfl, by decide, by decide⟩

/-- C4, amended.  Every boundary produced by the calculator has nonnegative
`x` and `y`, and strictly positive width whenever the anchor word's bounding
box is well formed (`x0 ≤ x1`); positive height and containment in the page
are not guaranteed. -/
theorem boundary_nonneg (cur : Word) (next : Option Word) (allWords : List Word)
    (himg : Int) :
    0 ≤ (calculateBlockBoundary cur next allWords himg).x ∧
    0 ≤ (calculateBlockBoundary cur next allWords himg).y ∧
    (cur.bbox.x0 ≤ cur.bbox.x1 → 0 < (calculateBlockBoundary cur next allWords himg).width) := by
  refine ⟨?_, ?_, ?_⟩
  · simp only [calculateBlockBoundary]
    exact le_intMax_left 0 _
  · simp only [calculateBlockBoundary]
    exact le_intMax_left 0 _
  · intro hx
    simp only [calculateBlockBoundary]
    have h1 := foldr_intMin_le
      (((allWords.filter (fun w => decide (intAbs (w.bbox.y0 - cur.bbox.y0) < 30))).map
        (fun w => w.bbox.x0))) cur.bbox.x0
    have h2 := le_foldr_intMax
      (((allWords.filter (fun w => decide (intAbs (w.bbox.y0 - cur.bbox.y0) < 30))).map
        (fun w => w.bbox.x1))) cur.bbox.x1
    omega

/-- C4, witness for the amended theorem at a concrete configuration. -/
theorem boundary_nonneg_witness :
    0 ≤ (calculateBlockBoundary wC (some wD) [wC, wD] 1000).x ∧
    0 ≤ (calculateBlockBoundary wC (some wD) [wC, wD] 1000).y ∧
    (wC.bbox.x0 ≤ wC.bbox.x1 → 0 < (calculateBlockBoundary wC (some wD) [wC, wD] 1000).width) :=
  boundary_nonneg wC (some wD) [wC, wD] 1000

theorem wordCandidates_mem (words : List Word) (w : Word) (hw : w ∈ words)
    (hid : containsStrictId (cleanWordText w.text) = true) :
    (⟨w, cleanWordText w.text, w.confidence⟩ : Candidate) ∈ wordCandidates words := by
  induction words with
  | nil => cases hw
  | cons v rest ih =>
    rcases List.mem_cons.mp hw with heq | hmem
    · subst heq
      simp only [wordCandidates]
      rw [if_pos hid]
      exact List.mem_cons_self _ _
    · simp only [wordCandidates]
      split
      · exact List.mem_cons_of_mem _ (ih hmem)
      · split
        · exact List.mem_cons_of_mem _ (ih hmem)
        · exact ih hmem

theorem dedup_not_seen : ∀ (l : List Candidate) (seen : List (List Char)) (d : Candidate),
    d ∈ dedupCandidates l seen → d.voterId ∉ seen := by
  intro l
  induction l with
  | nil => intro seen d hd; cases hd
  | cons c cs ih =>
    intro seen d hd
    simp only [dedupCandidates] at hd
    split at hd
    · exact ih seen d hd
    · rcases List.mem_cons.mp hd with heq | hmem
      · subst heq; assumption
      · have := ih _ d hmem
        intro hcon
        exact this (List.mem_cons_of_mem _ hcon)

theorem dedup_subset : ∀ (l : List Candidate) (seen : List (List Char)) (d : Candidate),
    d ∈ dedupCandidates l seen → d ∈ l := by
  intro l
  induction l with
  | nil => intro seen d hd; cases hd
  | cons c cs ih =>
    intro seen d hd
    simp only [dedupCandidates] at hd
    split at hd
    · exact List.mem_cons_of_mem _ (ih seen d hd)
    · rcases List.mem_cons.mp hd with heq | hmem
      · subst heq; exact List.mem_cons_self _ _
      · exact List.mem_cons_of_mem _ (ih _ d hmem)

theorem dedup_count_zero : ∀ (l : List Candidate) (seen : List (List Char)) (id : List Char),
    id ∈ seen →
    (dedupCandidates l seen).filter (fun d => decide (d.voterId = id)) = [] := by
  intro l
  induction l with
  | nil => intro seen id _; rfl
  | cons c cs ih =>
    intro seen id hid
    simp only [dedupCandidates]
    split
    · exact ih seen id hid
    · rename_i hnot
      rw [List.filter_cons]
      have hne : (decide (c.voterId = id)) = false := by
        simp only [decide_eq_false_iff_not]
        intro heq
        exact hnot (heq ▸ hid)
      rw [hne]
      simp only [Bool.false_eq_true, if_false]
      exact ih _ id (List.mem_cons_of_mem _ hid)

theorem dedup_count_one : ∀ (l : List Candidate) (seen : List (List Char)) (id : List Char),
    id ∉ seen → (∃ c ∈ l, c.voterId = id) →
    ((dedupCandidates l seen).filter (fun d => decide (d.voterId = id))).length = 1 := by
  intro l
  induction l with
  | nil => intro seen id _ hex; obtain ⟨c, hc, _⟩ := hex; cases hc
  | cons c cs ih =>
    intro seen id hnotseen hex
    simp only [dedupCandidates]
    split
    · rename_i hseen
      obtain ⟨e, he, hevid⟩ := hex
      rcases List.mem_cons.mp he with heq | hmem
      · exact absurd (hevid ▸ (heq ▸ hseen)) hnotseen
      · exact ih seen id hnotseen ⟨e, hmem, hevid⟩
    · rename_i hnot
      rw [List.filter_cons]
      by_cases hv : c.voterId = id
      · rw [decide_eq_true hv]
        simp only [if_true, List.length_cons]
        rw [dedup_count_zero cs (c.voterId :: seen) id (hv ▸ List.mem_cons_self _ _)]
        rfl
      · rw [decide_eq_false hv]
        simp only [Bool.false_eq_true, if_false]
        obtain ⟨e, he, hevid⟩ := hex
        rcases List.mem_cons.mp he with heq | hmem
        · exact absurd (heq ▸ hevid) hv
        · refine ih (c.voterId :: seen) id ?_ ⟨e, hmem, hevid⟩
          intro hcon
          rcases List.mem_cons.mp hcon with h1 | h2
          · exact hv h1.symm
          · exact hnotseen h2

theorem dedup_max : ∀ (l : List Candidate) (seen : List (List Char)),
    l.Pairwise candGE →
    ∀ d ∈ dedupCandidates l seen, ∀ c ∈ l, c.voterId = d.voterId →
      c.confidence ≤ d.confidence := by
  intro l
  induction l with
  | nil => intro seen _ d hd; cases hd
  | cons a cs ih =>
    intro seen hpw d hd c hc hvid
    have hpw2 := List.pairwise_cons.mp hpw
    simp only [dedupCandidates] at hd
    split at hd
    · rename_i hseen
      rcases List.mem_cons.mp hc with heq | hmem
      · subst heq
        exact absurd (hvid ▸ hseen) (dedup_not_seen cs seen d hd)
      · exact ih seen hpw2.2 d hd c hmem hvid
    · rcases List.mem_cons.mp hd with hdeq | hdmem
      · subst hdeq
        rcases List.mem_cons.mp hc with heq | hmem
        · subst heq; exact le_refl _
        · exact hpw2.1 c hmem
      · rcases List.mem_cons.mp hc with heq | hmem
        · subst heq
          have := dedup_not_seen cs (c.voterId :: seen) d hdmem
          exact absurd (hvid ▸ List.mem_cons_self _ _) this
        · exact ih _ hpw2.2 d hdmem c hmem hvid

/-- C3.  For every page word whose cleaned text contains a strict-grammar
identifier, the deduplicated anchor output contains that identifier exactly
once, and the retained candidate comes from the raw candidate pool and
carries the highest confidence among all candidates with that identifier. -/
theorem anchor_dedup (words : List Word) (w : Word) (hw : w ∈ words)
    (hid : containsStrictId (cleanWordText w.text) = true) :
    ((uniqueVoterIds words).filter
        (fun d => decide (d.voterId = cleanWordText w.text))).length = 1 ∧
    (∀ d ∈ uniqueVoterIds words, d.voterId = cleanWordText w.text →
      d ∈ anchorCandidates words ∧
      ∀ c ∈ anchorCandidates words, c.voterId = cleanWordText w.text →
        c.confidence ≤ d.confidence) := by
  have hcand : (⟨w, cleanWordText w.text, w.confidence⟩ : Candidate) ∈ anchorCandidates words :=
    List.mem_append_left _ (wordCandidates_mem words w hw hid)
  have hperm := List.perm_insertionSort candGE (anchorCandidates words)
  have hsorted : (List.insertionSort candGE (anchorCandidates words)).Pairwise candGE :=
    List.sorted_insertionSort candGE (anchorCandidates words)
  constructor
  · refine dedup_count_one _ [] (cleanWordText w.text) (by simp) ?_
    exact ⟨_, hperm.mem_iff.mpr hcand, rfl⟩
  · intro d hd hdvid
    constructor
    · exact hperm.mem_iff.mp (dedup_subset _ [] d hd)
    · intro c hc hcvid
      exact dedup_max _ [] hsorted d hd c (hperm.mem_iff.mpr hc) (hcvid.trans hdvid.symm)

/-- C3, witness at a concrete one-word page. -/
theorem anchor_dedup_witness :
    ((uniqueVoterIds [wA]).filter
        (fun d => decide (d.voterId = cleanWordText wA.text))).length = 1 ∧
    (∀ d ∈ uniqueVoterIds [wA], d.voterId = cleanWordText wA.text →
      d ∈ anchorCandidates [wA] ∧
      ∀ c ∈ anchorCandidates [wA], c.voterId = cleanWordText wA.text →
        c.confidence ≤ d.confidence) :=
  anchor_dedup [wA] wA (by decide) (by decide)

theorem containsStrictId_ne_nil {l : List Char} (h : containsStrictId l = true) : l ≠ [] := by
  intro heq
  subst heq
  simp [containsStrictId] at h

theorem isValidVoter_intro (id name : List Char) (age : Int)
    (hid : containsStrictId id = true) (hlen : name.length > 2)
    (hlab : ∀ l ∈ labelWords, containsSub name l = false)
    (h18 : 18 ≤ age) (h120 : age ≤ 120) :
    isValidVoter ⟨id, name, age⟩ = true := by
  have hne : id.isEmpty = false := by
    cases id with
    | nil => exact absurd hid (by simp [containsStrictId])
    | cons c cs => rfl
  simp only [isValidVoter, hne, hid, Bool.not_false, Bool.true_and]
  rw [List.any_eq_false.mpr (fun x hx => by simp [hlab x hx])]
  simp only [Bool.not_false, Bool.true_and]
  rw [decide_eq_true hlen, decide_eq_true h18, decide_eq_true h120]
  rfl

theorem isValidVoter_elim (v : VoterRec) (h : isValidVoter v = true) :
    containsStrictId v.voterId = true ∧ v.nameOdia.length > 2 ∧
    (∀ l ∈ labelWords, containsSub v.nameOdia l = false) ∧
    18 ≤ v.age ∧ v.age ≤ 120 := by
  simp only [isValidVoter, Bool.and_eq_true, Bool.not_eq_true', decide_eq_true_eq] at h
  refine ⟨h.1.1.1.1.2, h.1.1.1.2, ?_, h.1.2, h.2⟩
  intro l hl
  have := List.any_eq_false.mp h.1.1.2 l hl
  simpa using this

/-- C5.  Record validation accepts ages 18 and 120 and rejects 17 and 121
(given an otherwise valid identifier and name), and any record passing
validation has a strict-grammar identifier, a name longer than two
characters and a name free of label tokens. -/
theorem valid_voter_bounds (id name : List Char)
    (hid : containsStrictId id = true)
    (hlen : name.length > 2)
    (hlab : ∀ l ∈ labelWords, containsSub name l = false) :
    isValidVoter ⟨id, name, 18⟩ = true ∧ isValidVoter ⟨id, name, 120⟩ = true ∧
    isValidVoter ⟨id, name, 17⟩ = false ∧ isValidVoter ⟨id, name, 121⟩ = false ∧
    (∀ v : VoterRec, isValidVoter v = true →
      containsStrictId v.voterId = true ∧ v.nameOdia.length > 2 ∧
      ∀ l ∈ labelWords, containsSub v.nameOdia l = false) := by
  refine ⟨isValidVoter_intro id name 18 hid hlen hlab (by omega) (by omega),
    isValidVoter_intro id name 120 hid hlen hlab (by omega) (by omega), ?_, ?_, ?_⟩
  · simp [isValidVoter]
  · simp [isValidVoter]
  · intro v hv
    obtain ⟨h1, h2, h3, _⟩ := isValidVoter_elim v hv
    exact ⟨h1, h2, h3⟩

/-- C5, witness at a concrete identifier and name. -/
theorem valid_voter_bounds_witness :
    isValidVoter ⟨"ABC1234567".toList, "Ram".toList, 18⟩ = true ∧
    isValidVoter ⟨"ABC1234567".toList, "Ram".toList, 120⟩ = true ∧
    isValidVoter ⟨"ABC1234567".toList, "Ram".toList, 17⟩ = false ∧
    isValidVoter ⟨"ABC1234567".toList, "Ram".toList, 121⟩ = false ∧
    (∀ v : VoterRec, isValidVoter v = true →
      containsStrictId v.voterId = true ∧ v.nameOdia.length > 2 ∧
      ∀ l ∈ labelWords, containsSub v.nameOdia l = false) :=
  valid_voter_bounds "ABC1234567".toList "Ram".toList (by decide) (by decide) (by decide)

theorem extractAgeLoop_range (l : List Nat) :
    18 ≤ extractAgeLoop l ∧ extractAgeLoop l ≤ 120 := by
  induction l with
  | nil => exact ⟨by decide, by decide⟩
  | cons v rest ih =>
    simp only [extractAgeLoop]
    split
    · rename_i h; exact ⟨h.1, h.2⟩
    · exact ih

theorem extractAgeLoop_find (l : List Nat) :
    extractAgeLoop l = (l.find? (fun v => decide (18 ≤ v) && decide (v ≤ 120))).getD 25 := by
  induction l with
  | nil => rfl
  | cons v rest ih =>
    simp only [extractAgeLoop]
    by_cases h : 18 ≤ v ∧ v ≤ 120
    · rw [if_pos h, List.find?_cons_of_pos]
      · rfl
      · simp [h.1, h.2]
    · rw [if_neg h, List.find?_cons_of_neg, ih]
      simp only [Bool.and_eq_true, decide_eq_true_eq]
      omega

/-- C10.  Age extraction is total and always lands in [18, 120]: it returns
the first standalone two-digit token whose value lies in [18, 120] and
defaults to 25 otherwise, so a record whose age comes from the extractor is
never rejected by the age clause of validation. -/
theorem extract_age_total (s : List Char) (id name : List Char)
    (hid : containsStrictId id = true) (hlen : name.length > 2)
    (hlab : ∀ l ∈ labelWords, containsSub name l = false) :
    18 ≤ extractAge s ∧ extractAge s ≤ 120 ∧
    extractAge s = ((twoDigitTokens none s).find?
        (fun v => decide (18 ≤ v) && decide (v ≤ 120))).getD 25 ∧
    isValidVoter ⟨id, name, (extractAge s : Int)⟩ = true := by
  obtain ⟨h1, h2⟩ := extractAgeLoop_range (twoDigitTokens none s)
  refine ⟨h1, h2, extractAgeLoop_find (twoDigitTokens none s), ?_⟩
  refine isValidVoter_intro id name _ hid hlen hlab ?_ ?_
  · exact_mod_cast h1
  · exact_mod_cast h2

/-- C10, witness at a concrete block text. -/
theorem extract_age_total_witness :
    18 ≤ extractAge "Age: 37".toList ∧ extractAge "Age: 37".toList ≤ 120 ∧
    extractAge "Age: 37".toList = ((twoDigitTokens none "Age: 37".toList).find?
        (fun v => decide (18 ≤ v) && decide (v ≤ 120))).getD 25 ∧
    isValidVoter ⟨"ABC1234567".toList, "Sita".toList, (extractAge "Age: 37".toList : Int)⟩ = true :=
  extract_age_total "Age: 37".toList "ABC1234567".toList "Sita".toList
    (by decide) (by decide) (by decide)

theorem trim_nil_normalize {t : List Char} (h : trimChars t = []) : normalizeText t = [] := by
  simp [normalizeText, h, collapseWs, collapseWsAux]

theorem translate_calls_le_one (o : Option (List Char)) (st : TransState) (t : List Char) :
    (translateToEnglish o st t).externalCalls ≤ 1 := by
  simp only [translateToEnglish]
  split
  · simp
  · split
    · simp
    · split
      · simp
      · split
        · simp
        · cases o <;> simp

/-- C6, counterexample.  When the external translation fails on both calls
(the degraded result is deliberately not cached), two calls on the same
normalized Odia text issue two external calls in total, not at most one. -/
theorem translate_two_calls_cex :
    (translateToEnglish none ⟨[]⟩ odiaT).externalCalls +
      (translateToEnglish none (translateToEnglish none ⟨[]⟩ odiaT).state odiaT).externalCalls
      = 2 := by decide

/-- C6, amended.  If the first call's external translation succeeds (or no
external call was needed), then two calls with equal normalized text issue
at most one external call in total: the successful result is cached and the
second call is a cache hit or short-circuits. -/
theorem translate_cache_single_call (t1 t2 : List Char) (st : TransState)
    (r : List Char) (o2 : Option (List Char))
    (hnorm : normalizeText t1 = normalizeText t2) :
    (translateToEnglish (some r) st t1).externalCalls +
      (translateToEnglish o2 (translateToEnglish (some r) st t1).state t2).externalCalls
      ≤ 1 := by
  by_cases h1 : (trimChars t1).isEmpty = true
  · have e1 : translateToEnglish (some r) st t1 = ⟨[], st, 0⟩ := by
      simp [translateToEnglish, h1]
    rw [e1]
    simpa using translate_calls_le_one o2 st t2
  · cases hc : cacheLookup (normalizeText t1) st.cache with
    | some v =>
      have e1 : translateToEnglish (some r) st t1 = ⟨v, st, 0⟩ := by
        simp [translateToEnglish, h1, hc]
      rw [e1]
      simpa using translate_calls_le_one o2 st t2
    | none =>
      cases ho : isOdiaText (normalizeText t1) with
      | false =>
        have e1 : translateToEnglish (some r) st t1 = ⟨normalizeText t1, st, 0⟩ := by
          simp [translateToEnglish, h1, hc, ho]
        rw [e1]
        simpa using translate_calls_le_one o2 st t2
      | true =>
        by_cases hl : (normalizeText t1).length < 3
        · have e1 : translateToEnglish (some r) st t1 = ⟨normalizeText t1, st, 0⟩ := by
            simp [translateToEnglish, h1, hc, ho, hl]
          rw [e1]
          simpa using translate_calls_le_one o2 st t2
        · have e1 : translateToEnglish (some r) st t1
              = ⟨r, ⟨(normalizeText t1, r) :: st.cache⟩, 1⟩ := by
            simp [translateToEnglish, h1, hc, ho, hl]
          rw [e1]
          by_cases h2 : (trimChars t2).isEmpty = true
          · have e2 : translateToEnglish o2 ⟨(normalizeText t1, r) :: st.cache⟩ t2
                = ⟨[], ⟨(normalizeText t1, r) :: st.cache⟩, 0⟩ := by
              simp [translateToEnglish, h2]
            rw [e2]
            simp
          · have hl2 : cacheLookup (normalizeText t2) ((normalizeText t1, r) :: st.cache)
                = some r := by
              simp [cacheLookup, hnorm]
            have e2 : translateToEnglish o2 ⟨(normalizeText t1, r) :: st.cache⟩ t2
                = ⟨r, ⟨(normalizeText t1, r) :: st.cache⟩, 0⟩ := by
              simp [translateToEnglish, h2, hl2]
            rw [e2]
            simp

/-- C6, witness for the amended theorem: a successful call followed by a
failing call on the same text still issues at most one external call. -/
theorem translate_cache_single_call_witness :
    (translateToEnglish (some "Abc".toList) ⟨[]⟩ odiaT).externalCalls +
      (translateToEnglish none
        (translateToEnglish (some "Abc".toList) ⟨[]⟩ odiaT).state odiaT).externalCalls
      ≤ 1 :=
  translate_cache_single_call odiaT odiaT ⟨[]⟩ "Abc".toList none rfl

theorem mem_collapseWsAux {c : Char} : ∀ (flag : Bool) (s : List Char),
    c ∈ collapseWsAux flag s → c ∈ s ∨ c = ' ' := by
  intro flag s
  induction s generalizing flag with
  | nil => intro h; cases h
  | cons a rest ih =>
    intro h
    simp only [collapseWsAux] at h
    split at h
    · split at h
      · rcases ih true h with h1 | h2
        · exact Or.inl (List.mem_cons_of_mem _ h1)
        · exact Or.inr h2
      · rcases List.mem_cons.mp h with h1 | h2
        · exact Or.inr h1
        · rcases ih true h2 with h3 | h4
          · exact Or.inl (List.mem_cons_of_mem _ h3)
          · exact Or.inr h4
    · rcases List.mem_cons.mp h with h1 | h2
      · exact Or.inl (h1 ▸ List.mem_cons_self _ _)
      · rcases ih false h2 with h3 | h4
        · exact Or.inl (List.mem_cons_of_mem _ h3)
        · exact Or.inr h4

theorem mem_trimChars {c : Char} {s : List Char} (h : c ∈ trimChars s) : c ∈ s := by
  unfold trimChars at h
  rw [List.mem_reverse] at h
  have h2 := (List.dropWhile_suffix isWsChar).sublist.subset h
  rw [List.mem_reverse] at h2
  exact (List.dropWhile_suffix isWsChar).sublist.subset h2

theorem noOdia_normalize {t : List Char} (h : ∀ c ∈ t, isOdiaChar c = false) :
    isOdiaText (normalizeText t) = false := by
  rw [isOdiaText, List.any_eq_false]
  intro c hc
  simp only [Bool.not_eq_true]
  rw [normalizeText, List.mem_filter] at hc
  rcases mem_collapseWsAux false _ (by simpa [collapseWs] using hc.1) with h1 | h2
  · exact h c (mem_trimChars h1)
  · subst h2; decide

/-- C7, counterexample.  On the Odia-free input "ab!" the function returns
the normalized text "ab", not the input unchanged, even though it issues no
external call. -/
theorem translate_unchanged_cex :
    (translateToEnglish none ⟨[]⟩ "ab!".toList).result ≠ "ab!".toList ∧
    (translateToEnglish none ⟨[]⟩ "ab!".toList).externalCalls = 0 ∧
    (∀ c ∈ "ab!".toList, isOdiaChar c = false) := by decide

/-- C7, amended.  For an input with no Odia codepoints, or whose normalized
form is shorter than 3, the function issues no external call and (on a cache
miss) returns the normalized text, which coincides with the input only when
normalization leaves it unchanged. -/
theorem translate_passthrough (o : Option (List Char)) (st : TransState) (t : List Char)
    (h : (∀ c ∈ t, isOdiaChar c = false) ∨ (normalizeText t).length < 3) :
    (translateToEnglish o st t).externalCalls = 0 ∧
    (cacheLookup (normalizeText t) st.cache = none →
      (translateToEnglish o st t).result = normalizeText t) := by
  by_cases h1 : (trimChars t).isEmpty = true
  · have hn : normalizeText t = [] := trim_nil_normalize (by simpa using h1)
    have e1 : translateToEnglish o st t = ⟨[], st, 0⟩ := by simp [translateToEnglish, h1]
    rw [e1, hn]
    exact ⟨rfl, fun _ => rfl⟩
  · cases hc : cacheLookup (normalizeText t) st.cache with
    | some v =>
      have e1 : translateToEnglish o st t = ⟨v, st, 0⟩ := by
        simp [translateToEnglish, h1, hc]
      rw [e1]
      exact ⟨rfl, fun hcontra => by cases hcontra⟩
    | none =>
      cases ho : isOdiaText (normalizeText t) with
      | false =>
        have e1 : translateToEnglish o st t = ⟨normalizeText t, st, 0⟩ := by
          simp [translateToEnglish, h1, hc, ho]
        rw [e1]
        exact ⟨rfl, fun _ => rfl⟩
      | true =>
        rcases h with hno | hlen
        · rw [noOdia_normalize hno] at ho
          cases ho
        · have e1 : translateToEnglish o st t = ⟨normalizeText t, st, 0⟩ := by
            simp [translateToEnglish, h1, hc, ho, hlen]
          rw [e1]
          exact ⟨rfl, fun _ => rfl⟩

/-- C7, witness at the concrete Odia-free input "ab!". -/
theorem translate_passthrough_witness :
    (translateToEnglish none ⟨[]⟩ "ab!".toList).externalCalls = 0 ∧
    (cacheLookup (normalizeText "ab!".toList) (⟨[]⟩ : TransState).cache = none →
      (translateToEnglish none ⟨[]⟩ "ab!".toList).result = normalizeText "ab!".toList) :=
  translate_passthrough none ⟨[]⟩ "ab!".toList (Or.inl (by decide))

theorem maxYFrom_append (tl : List OcrLine) (l : OcrLine) : ∀ m : Int,
    maxYFrom m (tl ++ [l]) = intMax (maxYFrom m tl) l.bbox.y1 := by
  induction tl with
  | nil => intro m; rfl
  | cons a rest ih => intro m; simp only [List.cons_append, maxYFrom]; exact ih _

theorem chainOk_append (tl : List OcrLine) (l : OcrLine) : ∀ m : Int,
    chainOk m (tl ++ [l]) = (chainOk m tl && decide (l.bbox.y0 - maxYFrom m tl < 40)) := by
  induction tl with
  | nil => intro m; simp [chainOk, maxYFrom]
  | cons a rest ih =>
    intro m
    simp only [List.cons_append, chainOk, maxYFrom, List.append_eq, ih (intMax m a.bbox.y1)]
    rw [Bool.and_assoc]

theorem structGroupsAux_spec (lines : List OcrLine) : ∀ (cur : StructBlock)
    (hd : OcrLine) (tl : List OcrLine),
    cur.lines = hd :: tl → chainOk hd.bbox.y1 tl = true →
    cur.maxY = maxYFrom hd.bbox.y1 tl →
    ((structGroupsAux cur lines).map StructBlock.lines).flatten = cur.lines ++ lines ∧
    (∀ B ∈ structGroupsAux cur lines, blockWellFormed B) ∧
    splitOk (structGroupsAux cur lines) = true ∧
    (∃ first rest2 ext, structGroupsAux cur lines = first :: rest2 ∧
      first.lines = cur.lines ++ ext) := by
  induction lines with
  | nil =>
    intro cur hd tl hlines hchain hmax
    refine ⟨by simp [structGroupsAux], ?_, by simp [structGroupsAux, splitOk], ?_⟩
    · intro B hB
      simp only [structGroupsAux, List.mem_singleton] at hB
      subst hB
      exact ⟨hd, tl, hlines, hchain, hmax⟩
    · exact ⟨cur, [], [], by simp [structGroupsAux], by simp⟩
  | cons l rest ih =>
    intro cur hd tl hlines hchain hmax
    simp only [structGroupsAux]
    split
    · rename_i hgap
      have hlines2 : (extendStructBlock cur l).lines = hd :: (tl ++ [l]) := by
        simp [extendStructBlock, hlines]
      have hchain2 : chainOk hd.bbox.y1 (tl ++ [l]) = true := by
        rw [chainOk_append]
        rw [hchain, Bool.true_and, decide_eq_true_eq]
        rw [hmax] at hgap
        exact hgap
      have hmax2 : (extendStructBlock cur l).maxY = maxYFrom hd.bbox.y1 (tl ++ [l]) := by
        rw [maxYFrom_append]
        simp [extendStructBlock, hmax]
      obtain ⟨hflat, hwf, hsplit, first, rest2, ext, heq, hfl⟩ :=
        ih (extendStructBlock cur l) hd (tl ++ [l]) hlines2 hchain2 hmax2
      refine ⟨?_, hwf, hsplit, first, rest2, [l] ++ ext, heq, ?_⟩
      · rw [hflat]
        simp [extendStructBlock, hlines]
      · rw [hfl]
        simp [extendStructBlock]
    · rename_i hgap
      have hlines2 : (newStructBlock l).lines = l :: [] := rfl
      have hchain2 : chainOk l.bbox.y1 ([] : List OcrLine) = true := rfl
      have hmax2 : (newStructBlock l).maxY = maxYFrom l.bbox.y1 [] := rfl
      obtain ⟨hflat, hwf, hsplit, first, rest2, ext, heq, hfl⟩ :=
        ih (newStructBlock l) l [] hlines2 hchain2 hmax2
      refine ⟨?_, ?_, ?_, cur, structGroupsAux (newStructBlock l) rest, [], rfl, by simp⟩
      · simp only [List.map_cons, List.flatten_cons, hflat]
        simp [newStructBlock]
      · intro B hB
        rcases List.mem_cons.mp hB with hB1 | hB2
        · subst hB1
          exact ⟨hd, tl, hlines, hchain, hmax⟩
        · exact hwf B hB2
      · rw [heq]
        simp only [splitOk]
        rw [hfl]
        simp only [newStructBlock, List.singleton_append]
        rw [heq] at hsplit
        rw [hsplit]
        simp only [Bool.and_true]
        rw [decide_eq_true (by omega : (40 : Int) ≤ l.bbox.y0 - cur.maxY)]

/-- C8, counterexample.  Two lines whose vertical gap is exactly 40 (which
does not exceed 40) are nevertheless placed in different groups, because the
code starts a new group when the gap is 40 or more, not only when it exceeds
40. -/
theorem struct_gap_forty_cex :
    (structGroups [lineP, lineQ]).map StructBlock.lines = [[lineP], [lineQ]] ∧
    lineQ.bbox.y0 - lineP.bbox.y1 = 40 := by decide

/-- C8, amended.  The structural grouping partitions the recognized lines in
order; within a group every line joined with a gap strictly below 40px from
the running group bottom, and every new group started with a gap of at least
40px (so consecutive lines land in different groups exactly when the gap is
40px or more). -/
theorem structGroups_spec (lines : List OcrLine) :
    ((structGroups lines).map StructBlock.lines).flatten = lines ∧
    (∀ B ∈ structGroups lines, blockWellFormed B) ∧
    splitOk (structGroups lines) = true := by
  cases lines with
  | nil => exact ⟨rfl, fun B hB => absurd hB (by simp [structGroups]), rfl⟩
  | cons l rest =>
    obtain ⟨hflat, hwf, hsplit, _⟩ :=
      structGroupsAux_spec rest (newStructBlock l) l [] rfl rfl rfl
    exact ⟨by simpa [structGroups, newStructBlock] using hflat, hwf, hsplit⟩

/-- C8, witness for the amended theorem at a concrete pair of lines. -/
theorem structGroups_spec_witness :
    ((structGroups [lineP, lineQ]).map StructBlock.lines).flatten = [lineP, lineQ] ∧
    (∀ B ∈ structGroups [lineP, lineQ], blockWellFormed B) ∧
    splitOk (structGroups [lineP, lineQ]) = true :=
  structGroups_spec [lineP, lineQ]

theorem ciStartsWith_length_le {a s : List Char} (h : ciStartsWith a s = true) :
    a.length ≤ s.length := by
  induction a generalizing s with
  | nil => simp
  | cons p ps ih =>
    cases s with
    | nil => simp [ciStartsWith] at h
    | cons c cs =>
      rw [ciStartsWith, Bool.and_eq_true] at h
      have := ih h.2
      simp only [List.length_cons]
      omega

theorem ciStartsWith_append {a s : List Char} (t : List Char)
    (h : ciStartsWith a s = true) : ciStartsWith a (s ++ t) = true := by
  induction a generalizing s with
  | nil => rfl
  | cons p ps ih =>
    cases s with
    | nil => simp [ciStartsWith] at h
    | cons c cs =>
      rw [ciStartsWith, Bool.and_eq_true] at h
      rw [List.cons_append, ciStartsWith, Bool.and_eq_true]
      exact ⟨h.1, ih h.2⟩

theorem dropWs_append {s : List Char} (t : List Char) (h : dropWs s ≠ []) :
    dropWs (s ++ t) = dropWs s ++ t := by
  unfold dropWs at *
  induction s with
  | nil => exact absurd rfl h
  | cons c cs ih =>
    by_cases hc : isWsChar c = true
    · rw [List.dropWhile_cons_of_pos hc] at h
      rw [List.cons_append, List.dropWhile_cons_of_pos hc, List.dropWhile_cons_of_pos hc]
      exact ih h
    · rw [List.cons_append, List.dropWhile_cons_of_neg hc, List.dropWhile_cons_of_neg hc,
        List.cons_append]

theorem expectColon_append {s r : List Char} (t : List Char) (h : expectColon s = some r) :
    expectColon (s ++ t) = some (r ++ t) := by
  rw [expectColon] at h
  cases hd : dropWs s with
  | nil => rw [hd] at h; cases h
  | cons c cs =>
    rw [hd] at h
    have h2 : (if c = ':' then some cs else none) = some r := h
    split at h2
    · rename_i hc
      have hr : cs = r := by injection h2
      have hne : dropWs s ≠ [] := by rw [hd]; exact List.cons_ne_nil _ _
      have hda : dropWs (s ++ t) = c :: (cs ++ t) := by
        rw [dropWs_append t hne, hd, List.cons_append]
      rw [expectColon, hda]
      show (if c = ':' then some (cs ++ t) else none) = some (r ++ t)
      rw [if_pos hc, hr]
    · cases h2

theorem keysColonAt_append {alts : List (List Char)} {l : List Char} (t : List Char)
    (h : keysColonAt alts l = true) : keysColonAt alts (l ++ t) = true := by
  rw [keysColonAt, List.any_eq_true] at h ⊢
  obtain ⟨a, ha, hc⟩ := h
  rw [Bool.and_eq_true] at hc
  refine ⟨a, ha, ?_⟩
  rw [Bool.and_eq_true]
  refine ⟨ciStartsWith_append t hc.1, ?_⟩
  have hlen := ciStartsWith_length_le hc.1
  rw [List.drop_append_of_le_length hlen]
  cases he : expectColon (l.drop a.length) with
  | none => rw [he] at hc; exact absurd hc.2 (by simp)
  | some r => rw [expectColon_append t he]; rfl

theorem keysColonAt_lookahead {s : List Char}
    (h : keysColonAt allKeyAlternatives s = true) :
    lookaheadOk allKeyAlternatives s = true := by
  cases s with
  | nil => exact absurd h (by decide)
  | cons c rest =>
    rw [lookaheadOk, keysColonAfterWs, h]
    rfl

theorem capGo_isPre (alts : List (List Char)) : ∀ l : List Char,
    ∃ t, capGo alts l ++ t = l := by
  intro l
  induction l with
  | nil => exact ⟨[], rfl⟩
  | cons c rest ih =>
    simp only [capGo]
    split
    · exact ⟨c :: rest, rfl⟩
    · obtain ⟨t, ht⟩ := ih
      exact ⟨t, by rw [List.cons_append, ht]⟩

theorem capGo_no_lookahead (alts : List (List Char)) : ∀ (l : List Char) (j : Nat),
    j < (capGo alts l).length → lookaheadOk alts (l.drop j) = false := by
  intro l
  induction l with
  | nil => intro j hj; simp [capGo] at hj
  | cons c rest ih =>
    intro j hj
    simp only [capGo] at hj
    split at hj
    · simp at hj
    · rename_i hla
      cases j with
      | zero =>
        simp only [List.drop_zero]
        simp only [Bool.not_eq_true] at hla
        exact hla
      | succ k =>
        simp only [List.length_cons] at hj
        have := ih k (by omega)
        simpa using this

theorem captured_no_key (s w : List Char)
    (h : captureValue allKeyAlternatives s = some w) :
    ∀ j, 1 ≤ j → keysColonAt allKeyAlternatives (w.drop j) = false := by
  intro j hj
  cases s with
  | nil => cases h
  | cons c0 s0 =>
    simp only [captureValue] at h
    split at h
    · rename_i hk
      have hw : (c0 :: s0).drop ((((c0 :: s0).takeWhile isWsChar).length) - 1) = w := by
        injection h
      have hlen : w.length ≤ 1 := by
        rw [← hw, List.length_drop]
        omega
      have hnil : w.drop j = [] := List.drop_eq_nil_iff.mpr (by omega)
      rw [hnil]
      decide
    · cases hd : (c0 :: s0).drop (((c0 :: s0).takeWhile isWsChar).length) with
      | nil => rw [hd] at h; cases h
      | cons c rest =>
        rw [hd] at h
        have hw : c :: capGo allKeyAlternatives rest = w := by injection h
        subst hw
        have hdrop : (c :: capGo allKeyAlternatives rest).drop j
            = (capGo allKeyAlternatives rest).drop (j - 1) := by
          cases j with
          | zero => omega
          | succ k => simp
        rw [hdrop]
        by_contra hcon
        simp only [Bool.not_eq_false] at hcon
        have hne : (capGo allKeyAlternatives rest).drop (j - 1) ≠ [] := by
          intro hemp; rw [hemp] at hcon; exact absurd hcon (by decide)
        have hlt : j - 1 < (capGo allKeyAlternatives rest).length := by
          by_contra hge
          exact hne (List.drop_eq_nil_iff.mpr (by omega))
        obtain ⟨t, ht⟩ := capGo_isPre allKeyAlternatives rest
        have hsplit : rest.drop (j - 1) = (capGo allKeyAlternatives rest).drop (j - 1) ++ t := by
          have hca := congrArg (List.drop (j - 1)) ht
          rw [List.drop_append_of_le_length (by omega)] at hca
          exact hca.symm
        have h2 : keysColonAt allKeyAlternatives (rest.drop (j - 1)) = true := by
          rw [hsplit]; exact keysColonAt_append t hcon
        have h3 := keysColonAt_lookahead h2
        have h4 := capGo_no_lookahead allKeyAlternatives rest (j - 1) hlt
        rw [h4] at h3
        cases h3

theorem tryFieldAt_capture {s w : List Char} : ∀ fieldAlts : List (List Char),
    tryFieldAt allKeyAlternatives s fieldAlts = some w →
    ∃ r, captureValue allKeyAlternatives r = some w := by
  intro fieldAlts
  induction fieldAlts with
  | nil => intro h; cases h
  | cons a restAlts ih =>
    intro h
    simp only [tryFieldAt] at h
    split at h
    · rename_i afterColon heq
      split at h
      · rename_i v hv
        have : v = w := by injection h
        exact ⟨afterColon, this ▸ hv⟩
      · exact ih h
    · exact ih h

theorem findFieldMatch_capture (fieldAlts : List (List Char)) {w : List Char} :
    ∀ text : List Char, findFieldMatch fieldAlts allKeyAlternatives text = some w →
    ∃ r, captureValue allKeyAlternatives r = some w := by
  intro text
  induction text with
  | nil => intro h; cases h
  | cons c rest ih =>
    intro h
    simp only [findFieldMatch] at h
    split at h
    · rename_i v hv
      have : v = w := by injection h
      exact tryFieldAt_capture fieldAlts (this ▸ hv)
    · exact ih h

theorem firstSegment_isPre : ∀ l : List Char, ∃ t, firstSegment l ++ t = l := by
  intro l
  induction l with
  | nil => exact ⟨[], rfl⟩
  | cons c rest ih =>
    simp only [firstSegment]
    split
    · exact ⟨_, rfl⟩
    · split
      · split
        · exact ⟨_, rfl⟩
        · obtain ⟨t, ht⟩ := ih
          exact ⟨t, by rw [List.cons_append, ht]⟩
      · obtain ⟨t, ht⟩ := ih
        exact ⟨t, by rw [List.cons_append, ht]⟩

theorem trimChars_isInfix (l : List Char) : trimChars l <:+: l := by
  unfold trimChars
  have h1 : l.dropWhile isWsChar <:+ l := List.dropWhile_suffix isWsChar
  have h2 : (l.dropWhile isWsChar).reverse.dropWhile isWsChar <:+
      (l.dropWhile isWsChar).reverse := List.dropWhile_suffix isWsChar
  have h3 := List.reverse_prefix.mpr h2
  rw [List.reverse_reverse] at h3
  exact h3.isInfix.trans h1.isInfix

theorem value_isInfix (w : List Char) :
    trimChars (firstSegment (trimChars w)) <:+: w := by
  have h1 := trimChars_isInfix w
  obtain ⟨t, ht⟩ := firstSegment_isPre (trimChars w)
  have h2 : firstSegment (trimChars w) <+: trimChars w := ⟨t, ht⟩
  have h3 := trimChars_isInfix (firstSegment (trimChars w))
  exact h3.trans (h2.isInfix.trans h1)

theorem infix_drop_key {v w : List Char} (hinf : v <:+: w)
    (hno : ∀ j, 1 ≤ j → keysColonAt allKeyAlternatives (w.drop j) = false)
    (p : Nat) (hp : 1 ≤ p) : keysColonAt allKeyAlternatives (v.drop p) = false := by
  obtain ⟨s, t, hw⟩ := hinf
  by_contra hcon
  simp only [Bool.not_eq_false] at hcon
  have hne : v.drop p ≠ [] := by
    intro hemp; rw [hemp] at hcon; exact absurd hcon (by decide)
  have hlt : p < v.length := by
    by_contra hge
    exact hne (List.drop_eq_nil_iff.mpr (by omega))
  have hstep : (s ++ (v ++ t)).drop (s.length + p) = (v ++ t).drop p := by
    simp [List.drop_append]
  have hdrop : w.drop (s.length + p) = v.drop p ++ t := by
    rw [← hw, List.append_assoc, hstep]
    exact List.drop_append_of_le_length (by omega)
  have h2 : keysColonAt allKeyAlternatives (w.drop (s.length + p)) = true := by
    rw [hdrop]; exact keysColonAt_append t hcon
  have h3 := hno (s.length + p) (by omega)
  rw [h3] at h2
  cases h2

/-- C9, counterexample.  On input "Name:Age: 5" the extractor returns the
name value "Age: 5", and re-running the extractor on that value matches the
age field, so extraction is not idempotent: a label-colon pattern can
survive at the start of an extracted value. -/
theorem extract_idempotent_cex :
    (extractKeyValues "Name:Age: 5".toList).name = some ("Age: 5".toList) ∧
    (extractKeyValues "Age: 5".toList).age = some ("5".toList) :=
  ⟨by decide, by decide⟩

/-- C9, amended.  A nested label can only survive as a prefix of an
extracted value: at every positive offset inside any field value produced by
the extractor, no label-followed-by-colon pattern occurs. -/
theorem extract_no_inner_label (text v : List Char)
    (hv : (extractKeyValues text).name = some v ∨ (extractKeyValues text).age = some v ∨
      (extractKeyValues text).gender = some v ∨ (extractKeyValues text).houseNo = some v ∨
      (extractKeyValues text).guardianName = some v)
    (p : Nat) (hp : 1 ≤ p) :
    keysColonAt allKeyAlternatives (v.drop p) = false := by
  have hgen : ∀ fieldAlts : List (List Char),
      extractFieldValue fieldAlts allKeyAlternatives text = some v →
      keysColonAt allKeyAlternatives (v.drop p) = false := by
    intro fieldAlts hf
    rw [extractFieldValue] at hf
    cases hm : findFieldMatch fieldAlts allKeyAlternatives text with
    | none => rw [hm] at hf; cases hf
    | some w =>
      rw [hm] at hf
      have hfv : trimChars (firstSegment (trimChars w)) = v := by injection hf
      obtain ⟨r, hr⟩ := findFieldMatch_capture fieldAlts text hm
      have hno := captured_no_key r w hr
      rw [← hfv]
      exact infix_drop_key (value_isInfix w) hno p hp
  rcases hv with h | h | h | h | h
  · exact hgen keyTableName h
  · exact hgen keyTableAge h
  · exact hgen keyTableGender h
  · exact hgen keyTableHouseNo h
  · exact hgen keyTableGuardian h

/-- C9, witness for the amended theorem at the counterexample value. -/
theorem extract_no_inner_label_witness :
    keysColonAt allKeyAlternatives (("Age: 5".toList).drop 1) = false :=
  extract_no_inner_label "Name:Age: 5".toList "Age: 5".toList
    (Or.inl (by decide)) 1 (by decide)

end VoterOcr
